import Mathlib

/-!
Shallow embedding of the two command-line tools of this repository:

* `src/generate_tiles.py` — loads an image, partitions it into a `cols × rows`
  grid, computes the average color of each cell, writes one solid tile per
  non-degenerate cell, and packs a contact-sheet preview.
* `src/img.py` — generates images made of `block_size × block_size` uniformly
  colored squares.

The real-valued arithmetic of Python (`w / cols`, `round`, `ceil`) is embedded over
`ℚ` with `pyRound` implementing the round-half-to-even of Python.  Rasters are
embedded as functions `ℕ → ℕ → RGB`.  Filesystem and image-codec effects are
embedded as explicit inputs (does the source file exist, does it decode, does
saving the preview fail) and outputs (exit code, files written).
-/

namespace NavKiosk

/-- An 8-bit RGB triple, each channel a natural number (0..255 in actual use). -/
structure RGB where
  r : ℕ
  g : ℕ
  b : ℕ
  deriving DecidableEq, Repr

/-- The built-in `round` of Python: round half to even,
returning an integer.  `round(0.5) = 0`, `round(1.5) = 2`, `round(2.5) = 2`. -/
def pyRound (q : ℚ) : ℤ :=
  if q - ⌊q⌋ < 1/2 then ⌊q⌋
  else if 1/2 < q - ⌊q⌋ then ⌊q⌋ + 1
  else if ⌊q⌋ % 2 = 0 then ⌊q⌋ else ⌊q⌋ + 1

/-- Pixel bounds of one grid cell, as computed in the tile loop of
`src/generate_tiles.py`: `left`/`upper` are raw rounded boundaries, while
`right`/`lower` are additionally clamped to the image size. -/
structure Cell where
  left : ℤ
  upper : ℤ
  right : ℤ
  lower : ℤ
  deriving DecidableEq, Repr

/-- The candidate cell at grid position `(r, c)` for a `w × h` image split into
`cols × rows` cells.  Mirrors `src/generate_tiles.py` lines 105-111, with
the real division and `round` of Python embedded over `ℚ`. -/
def gridCell (w h cols rows r c : ℕ) : Cell :=
  { left  := pyRound ((c : ℚ) * ((w : ℚ) / (cols : ℚ)))
    upper := pyRound ((r : ℚ) * ((h : ℚ) / (rows : ℚ)))
    right := min (pyRound (((c : ℚ) + 1) * ((w : ℚ) / (cols : ℚ)))) (w : ℤ)
    lower := min (pyRound (((r : ℚ) + 1) * ((h : ℚ) / (rows : ℚ)))) (h : ℤ) }

/-- The skip condition of `src/generate_tiles.py` line 112:
`right <= left or lower <= upper`. -/
def degenerateCell (cell : Cell) : Prop :=
  cell.right ≤ cell.left ∨ cell.lower ≤ cell.upper

instance (cell : Cell) : Decidable (degenerateCell cell) := by
  unfold degenerateCell
  exact inferInstance

/-- The row-major list of all candidate cells produced by the nested
`for r in range(rows): for c in range(cols):` loop (before the degeneracy
filter). -/
def gridCells (w h cols rows : ℕ) : List Cell :=
  (List.range rows).flatMap
    (fun r => (List.range cols).map (fun c => gridCell w h cols rows r c))

/-- The grid positions whose cells survive the degeneracy filter, in loop
order; the tile loop saves exactly one tile file per such position. -/
def nondegPositions (w h cols rows : ℕ) : List (ℕ × ℕ) :=
  ((List.range rows).flatMap
    (fun r => (List.range cols).map (fun c => (r, c)))).filter
    (fun p => ! decide (degenerateCell (gridCell w h cols rows p.1 p.2)))

/-- Tile output filename, `src/generate_tiles.py` line 118. -/
def tileFileName (r c : ℕ) : String :=
  "tile_r" ++ toString r ++ "_c" ++ toString c ++ ".png"

/-- Paste-position loop of `build_preview` (`src/generate_tiles.py` lines
58-65): starting from `x = y = padding`, emit the current `(x, y)` for each
remaining tile, then advance `x` by `tile_size + padding`, resetting `x` and
advancing `y` after every `cols`-th tile.  `i` is the 0-based index of the next
tile.  The wrap test is the `(i + 1) % cols == 0` of Python; both that `%` and
`Int.emod` return zero exactly on multiples, so the embedded test agrees with
the source for every nonzero `cols` (and `cols = 0` never reaches this loop:
`build_preview` fails earlier). -/
def pasteLoop (cols : ℤ) (ts pad : ℕ) : ℕ → ℕ → ℤ → ℤ → List (ℤ × ℤ)
  | 0, _, _, _ => []
  | n + 1, i, x, y =>
    (x, y) ::
      (if ((i : ℤ) + 1) % cols = 0 then
        pasteLoop cols ts pad n (i + 1) (pad : ℤ) (y + ts + pad)
      else
        pasteLoop cols ts pad n (i + 1) (x + ts + pad) y)

/-- Row count of the contact sheet: `ceil(len(tiles) / cols)` with Python real
division. -/
def previewRows (n : ℕ) (cols : ℤ) : ℤ := ⌈(n : ℚ) / (cols : ℚ)⌉

/-- Contact-sheet width `cols * tile_size + (cols + 1) * padding`. -/
def previewW (cols : ℤ) (ts pad : ℕ) : ℤ := cols * ts + (cols + 1) * pad

/-- Contact-sheet height `rows * tile_size + (rows + 1) * padding`. -/
def previewH (n : ℕ) (cols : ℤ) (ts pad : ℕ) : ℤ :=
  previewRows n cols * ts + (previewRows n cols + 1) * pad

/-- `build_preview` (`src/generate_tiles.py` lines 52-66) for `n` tiles:
computes `rows = ceil(n / cols)` — a `ZeroDivisionError` when `cols = 0` —
allocates a `(w, h)` canvas — `Image.new` raises a `ValueError` when a computed
dimension is negative — and yields the canvas size together with the paste
position of every tile. -/
def build_preview (n : ℕ) (cols : ℤ) (ts pad : ℕ) :
    Except String (ℤ × ℤ × List (ℤ × ℤ)) :=
  if cols = 0 then Except.error "ZeroDivisionError: division by zero"
  else if previewW cols ts pad < 0 ∨ previewH n cols ts pad < 0 then
    Except.error "ValueError: bad image size"
  else Except.ok (previewW cols ts pad, previewH n cols ts pad,
    pasteLoop cols ts pad n 0 (pad : ℤ) (pad : ℤ))

/-- Closed-form paste position for the 0-based tile index `i`, following the
spec (§4.4): `x = padding + (i mod cols) * (tile_size + padding)`,
`y = padding + (i div cols) * (tile_size + padding)`.  This is the spec-side
definition of the refinement claim about the incremental placement loop. -/
def pastePosSpec (cols ts pad i : ℕ) : ℤ × ℤ :=
  ((pad : ℤ) + ((i % cols : ℕ) : ℤ) * ((ts : ℤ) + (pad : ℤ)),
   (pad : ℤ) + ((i / cols : ℕ) : ℤ) * ((ts : ℤ) + (pad : ℤ)))

/-- Triangle-filter weight of source index `i` when resampling `n` source
pixels down to a single destination pixel (support `n`, center `n / 2`). -/
def triWeight (n i : ℕ) : ℚ := 1 - |(i : ℚ) + 1/2 - (n : ℚ)/2| / (n : ℚ)

/-- Total (unnormalized) filter weight over one axis. -/
def weightSum (n : ℕ) : ℚ := ∑ i ∈ Finset.range n, triWeight n i

/-- Clip an integer channel value to the 8-bit range. -/
def clip8 (z : ℤ) : ℕ := (min 255 (max 0 z)).toNat

/-- One channel of the 1×1 `BILINEAR` downscale: normalized triangle-filter
weighted mean of the region, rounded and clipped to 8 bits. -/
def resampleChannel (w h : ℕ) (ch : ℕ → ℕ → ℕ) : ℕ :=
  clip8 (pyRound ((∑ x ∈ Finset.range w, ∑ y ∈ Finset.range h,
    triWeight w x * triWeight h y * (ch x y : ℚ)) / (weightSum w * weightSum h)))

/-- `average_color` (`src/generate_tiles.py` lines 31-35): resize the region to
1×1 with the Pillow `BILINEAR` filter and read the single pixel.  The external
resampler is embedded as the normalized triangle-filter weighted mean over
exact rationals. -/
def average_color (w h : ℕ) (px : ℕ → ℕ → RGB) : RGB :=
  { r := resampleChannel w h (fun x y => (px x y).r)
    g := resampleChannel w h (fun x y => (px x y).g)
    b := resampleChannel w h (fun x y => (px x y).b) }

/-- Externally visible outcome of one run of the tile tool.
`fatalMessagePrinted` records the diagnostic printed just before `sys.exit(1)`;
`previewFailureLogged` records the `Failed to build preview` diagnostic of the
`except` clause around preview building/saving. -/
structure RunResult where
  exitCode : ℕ
  dirCreated : Bool
  tileFiles : List String
  previewSaved : Bool
  fatalMessagePrinted : Bool
  previewFailureLogged : Bool
  deriving DecidableEq, Repr

/-- `main` of `src/generate_tiles.py`, with filesystem and codec effects made
explicit: `sourceIsFile` is the `os.path.isfile` test, `decodeOk` whether
`Image.open(...).convert("RGB")` succeeds, `w × h` the decoded image size, and
`previewSaveFails` whether `preview.save` raises.  Tile pixel contents never
influence control flow, so only the set of written tile files is tracked.
Argument integers are taken as supplied by `argparse` (`cols`/`rows` are
clamped with `max(1, ·)`; `preview_cols` is used unchecked). -/
def tileMain (sourceIsFile : Bool) (decodeOk : Bool) (w h : ℕ)
    (argCols argRows : ℤ) (tileSize : ℕ) (previewCols : ℤ)
    (previewSaveFails : Bool) : RunResult :=
  if !sourceIsFile then
    { exitCode := 1, dirCreated := false, tileFiles := [],
      previewSaved := false, fatalMessagePrinted := true,
      previewFailureLogged := false }
  else if !decodeOk then
    { exitCode := 1, dirCreated := false, tileFiles := [],
      previewSaved := false, fatalMessagePrinted := true,
      previewFailureLogged := false }
  else
    { exitCode := 0
      dirCreated := true
      tileFiles := (nondegPositions w h (max 1 argCols).toNat
          (max 1 argRows).toNat).map (fun p => tileFileName p.1 p.2)
      previewSaved :=
        (build_preview ((nondegPositions w h (max 1 argCols).toNat
            (max 1 argRows).toNat).length) previewCols tileSize 2).isOk
          && !previewSaveFails
      fatalMessagePrinted := false
      previewFailureLogged :=
        !(build_preview ((nondegPositions w h (max 1 argCols).toNat
            (max 1 argRows).toNat).length) previewCols tileSize 2).isOk
          || previewSaveFails }

/-- `pixels[x, y] = color` on a raster embedded as a function. -/
def setPixel (x0 y0 : ℕ) (c : RGB) (img : ℕ → ℕ → RGB) : ℕ → ℕ → RGB :=
  fun x y => if x = x0 ∧ y = y0 then c else img x y

/-- Inner loop of `src/img.py` lines 29-30: paint one column segment
`x = x0`, `y ∈ [y0, y0 + bs)`. -/
def paintColumn (x0 y0 bs : ℕ) (c : RGB) (img : ℕ → ℕ → RGB) : ℕ → ℕ → RGB :=
  (List.range bs).foldl (fun im dy => setPixel x0 (y0 + dy) c im) img

/-- Painting of one logical block (`src/img.py` lines 26-30): fill the square
`[bx*bs, (bx+1)*bs) × [b1*bs, (b1+1)*bs)` pixel by pixel. -/
def paintBlock (bs bx b1 : ℕ) (c : RGB) (img : ℕ → ℕ → RGB) : ℕ → ℕ → RGB :=
  (List.range bs).foldl (fun im dx => paintColumn (bx * bs + dx) (b1 * bs) bs c im) img

/-- Membership of pixel `(x, y)` in the square painted for logical block
`(bx, b1)`: exactly the pixel range of the loops in `src/img.py` lines 26-30,
`x ∈ [bx*bs, (bx+1)*bs)` and `y ∈ [b1*bs, (b1+1)*bs)`. -/
def inSquare (bs bx b1 x y : ℕ) : Prop :=
  bx * bs ≤ x ∧ x < (bx + 1) * bs ∧ b1 * bs ≤ y ∧ y < (b1 + 1) * bs

/-- `generate_random_image` (`src/img.py` lines 10-32) minus the final save:
allocate a black `(width*bs) × (height*bs)` raster (`Image.new` defaults)
and paint every logical block; the per-block random colors drawn by
`random_color()` are supplied by the `colors` function. -/
def generate_random_image (width height bs : ℕ) (colors : ℕ → ℕ → RGB) :
    ℕ → ℕ → RGB :=
  (List.range width).foldl
    (fun im bx => (List.range height).foldl
      (fun im2 b1 => paintBlock bs bx b1 (colors bx b1) im2) im)
    (fun _ _ => { r := 0, g := 0, b := 0 })

/-- Output filename of the block tool, `src/img.py` line 53. -/
def blockImageName (pre : String) (i : ℕ) : String :=
  pre ++ toString i ++ ".png"

/-- The `__main__` loop of `src/img.py` lines 50-54: for `i` in
`range(count)`, write `generate_random_image` output number `i + 1`.  Each
entry records filename, pixel width, pixel height, and raster contents. -/
def blockMain (width height bs count : ℕ) (pre : String)
    (colors : ℕ → ℕ → ℕ → RGB) : List (String × ℕ × ℕ × (ℕ → ℕ → RGB)) :=
  (List.range count).map
    (fun i => (blockImageName pre (i + 1), width * bs, height * bs,
      generate_random_image width height bs (colors i)))

/-! ### Lemmas about `pyRound` -/

/-- `pyRound` never drops below `q - 1/2`. -/
lemma pyRound_ge (q : ℚ) : (q : ℚ) - 1/2 ≤ (pyRound q : ℚ) := by
  unfold pyRound
  have hfl : (⌊q⌋ : ℚ) ≤ q := Int.floor_le q
  have hfl' : q - 1 < (⌊q⌋ : ℚ) := Int.sub_one_lt_floor q
  split
  · linarith
  · split
    · push_cast; linarith
    · split
      · linarith
      · push_cast; linarith

/-- `pyRound` never exceeds `q + 1/2`. -/
lemma pyRound_le (q : ℚ) : (pyRound q : ℚ) ≤ q + 1/2 := by
  unfold pyRound
  have hfl : (⌊q⌋ : ℚ) ≤ q := Int.floor_le q
  split
  · linarith
  · next h =>
    push_neg at h
    split
    · push_cast; linarith
    · split
      · linarith
      · push_cast; linarith

/-- `pyRound` is the identity on integers. -/
lemma pyRound_intCast (n : ℤ) : pyRound (n : ℚ) = n := by
  unfold pyRound
  rw [Int.floor_intCast]
  norm_num

/-- `pyRound` of a natural number cast. -/
lemma pyRound_natCast (n : ℕ) : pyRound (n : ℚ) = n := by
  have := pyRound_intCast (n : ℤ)
  push_cast at this ⊢
  exact this

/-- `pyRound` of a nonnegative rational is nonnegative. -/
lemma pyRound_nonneg {q : ℚ} (hq : 0 ≤ q) : 0 ≤ pyRound q := by
  unfold pyRound
  have h0 : (0 : ℤ) ≤ ⌊q⌋ := Int.floor_nonneg.mpr hq
  split
  · exact h0
  · split
    · omega
    · split
      · exact h0
      · omega

/-- Turn `x ≤ m` (an integer bound on a rational) into a bound on `pyRound x`. -/
lemma pyRound_le_int {x : ℚ} {m : ℤ} (h : x ≤ (m : ℚ)) : pyRound x ≤ m := by
  have h1 := pyRound_le x
  have h2 : (pyRound x : ℚ) < (m : ℚ) + 1 := by linarith
  have h3 : pyRound x < m + 1 := by exact_mod_cast h2
  omega

/-! ### Lemmas about the grid partitioner -/

/-- A row-major double loop flattens to indexing by `i / cols` and `i % cols`. -/
lemma flatMap_range_map_eq {α : Type} (f : ℕ → ℕ → α) (m cols : ℕ)
    (hc : 1 ≤ cols) :
    (List.range m).flatMap (fun r => (List.range cols).map (fun c => f r c)) =
      (List.range (m * cols)).map (fun i => f (i / cols) (i % cols)) := by
  induction m with
  | zero => simp
  | succ n ih =>
    rw [List.range_succ, List.flatMap_append, ih]
    rw [show (n + 1) * cols = n * cols + cols by ring, List.range_add,
      List.map_append]
    congr 1
    have hflat : ([n] : List ℕ).flatMap
        (fun r => (List.range cols).map (fun c => f r c)) =
        (List.range cols).map (fun c => f n c) := by
      simp [List.flatMap]
    rw [hflat, List.map_map]
    apply List.map_congr_left
    intro j hj
    have hj' : j < cols := List.mem_range.mp hj
    have hdiv : (n * cols + j) / cols = n := by
      rw [Nat.mul_comm n cols, Nat.mul_add_div (by omega)]
      simp [Nat.div_eq_of_lt hj']
    have hmod : (n * cols + j) % cols = j := by
      rw [Nat.mul_comm n cols, Nat.mul_add_mod]
      exact Nat.mod_eq_of_lt hj'
    simp only [Function.comp_apply, hdiv, hmod]

/-- Boundary `pyRound (c * (w / cols))` never exceeds `w` (for `c ≤ cols`). -/
lemma gridBoundary_le (w cols c : ℕ) (hc : 1 ≤ cols) (hcw : c ≤ cols) :
    pyRound ((c : ℚ) * ((w : ℚ) / (cols : ℚ))) ≤ (w : ℤ) := by
  apply pyRound_le_int
  have hcols : (0 : ℚ) < (cols : ℚ) := by exact_mod_cast hc
  have hcc : (c : ℚ) ≤ (cols : ℚ) := by exact_mod_cast hcw
  have hw : (0 : ℚ) ≤ (w : ℚ) / (cols : ℚ) := by positivity
  have h1 : (c : ℚ) * ((w : ℚ) / (cols : ℚ)) ≤
      (cols : ℚ) * ((w : ℚ) / (cols : ℚ)) :=
    mul_le_mul_of_nonneg_right hcc hw
  have h2 : (cols : ℚ) * ((w : ℚ) / (cols : ℚ)) = (w : ℚ) := by
    field_simp
  push_cast
  linarith

/-- Boundary `pyRound (c * (w / cols))` is nonnegative. -/
lemma gridBoundary_nonneg (w cols c : ℕ) :
    0 ≤ pyRound ((c : ℚ) * ((w : ℚ) / (cols : ℚ))) := by
  apply pyRound_nonneg
  positivity

/-- The final boundary `pyRound (cols * (w / cols))` equals `w` exactly. -/
lemma gridBoundary_last (w cols : ℕ) (hc : 1 ≤ cols) :
    pyRound ((cols : ℚ) * ((w : ℚ) / (cols : ℚ))) = (w : ℤ) := by
  have hcols : (cols : ℚ) ≠ 0 := by
    have : (0 : ℚ) < (cols : ℚ) := by exact_mod_cast hc
    exact ne_of_gt this
  have h : (cols : ℚ) * ((w : ℚ) / (cols : ℚ)) = ((w : ℕ) : ℚ) := by
    field_simp
  rw [h, pyRound_natCast]

/-- When the grid is no finer than the image (`cols ≤ w`), consecutive rounded
boundaries are strictly increasing. -/
lemma gridBoundary_lt_succ (w cols c : ℕ) (hc : 1 ≤ cols) (hwc : cols ≤ w)
    (hcc : c < cols) :
    pyRound ((c : ℚ) * ((w : ℚ) / (cols : ℚ))) <
      pyRound (((c : ℚ) + 1) * ((w : ℚ) / (cols : ℚ))) := by
  rcases eq_or_lt_of_le hwc with heq | hlt
  · -- cols = w : the cell width is exactly 1 and boundaries are integers.
    have hcols : (cols : ℚ) ≠ 0 := by
      have : (0 : ℚ) < (cols : ℚ) := by exact_mod_cast hc
      exact ne_of_gt this
    have hone : (w : ℚ) / (cols : ℚ) = 1 := by
      rw [← heq]
      field_simp
    rw [hone, mul_one, mul_one]
    have h1 : pyRound ((c : ℚ)) = (c : ℤ) := pyRound_natCast c
    have h2 : pyRound ((c : ℚ) + 1) = (c : ℤ) + 1 := by
      have := pyRound_natCast (c + 1)
      push_cast at this
      convert this using 2
    rw [h1, h2]
    omega
  · -- cols < w : the cell width exceeds 1, so rounding cannot collapse it.
    have hcols : (0 : ℚ) < (cols : ℚ) := by exact_mod_cast hc
    have h1 : (1 : ℚ) < (w : ℚ) / (cols : ℚ) := by
      rw [one_lt_div hcols]
      exact_mod_cast hlt
    have hge := pyRound_ge (((c : ℚ) + 1) * ((w : ℚ) / (cols : ℚ)))
    have hle := pyRound_le ((c : ℚ) * ((w : ℚ) / (cols : ℚ)))
    have hxy : ((c : ℚ) + 1) * ((w : ℚ) / (cols : ℚ)) =
        (c : ℚ) * ((w : ℚ) / (cols : ℚ)) + (w : ℚ) / (cols : ℚ) := by ring
    have hlt' : ((pyRound ((c : ℚ) * ((w : ℚ) / (cols : ℚ)))) : ℚ) <
        ((pyRound (((c : ℚ) + 1) * ((w : ℚ) / (cols : ℚ)))) : ℚ) := by
      linarith
    exact_mod_cast hlt'

/-- When the grid is no finer than the image, every non-final rounded boundary
stays strictly below `w`. -/
lemma gridBoundary_lt_last (w cols c : ℕ) (hc : 1 ≤ cols) (hwc : cols ≤ w)
    (hcc : c < cols) :
    pyRound ((c : ℚ) * ((w : ℚ) / (cols : ℚ))) < (w : ℤ) := by
  have hcols : (0 : ℚ) < (cols : ℚ) := by exact_mod_cast hc
  have hcw1 : (1 : ℚ) ≤ (w : ℚ) / (cols : ℚ) := by
    rw [le_div_iff₀ hcols]
    simpa using (by exact_mod_cast hwc : (cols : ℚ) ≤ (w : ℚ))
  have hc1 : (c : ℚ) ≤ (cols : ℚ) - 1 := by
    have : (c : ℚ) + 1 ≤ (cols : ℚ) := by exact_mod_cast hcc
    linarith
  have hmul : (c : ℚ) * ((w : ℚ) / (cols : ℚ)) ≤
      ((cols : ℚ) - 1) * ((w : ℚ) / (cols : ℚ)) :=
    mul_le_mul_of_nonneg_right hc1 (by linarith)
  have hexp : ((cols : ℚ) - 1) * ((w : ℚ) / (cols : ℚ)) =
      (cols : ℚ) * ((w : ℚ) / (cols : ℚ)) - (w : ℚ) / (cols : ℚ) := by ring
  have hfull : (cols : ℚ) * ((w : ℚ) / (cols : ℚ)) = (w : ℚ) := by
    field_simp
  have hle := pyRound_le ((c : ℚ) * ((w : ℚ) / (cols : ℚ)))
  have hq : ((pyRound ((c : ℚ) * ((w : ℚ) / (cols : ℚ)))) : ℚ) < (w : ℚ) := by
    linarith
  exact_mod_cast hq

/-- Whenever the grid is no finer than the image in both dimensions, no grid
cell is degenerate. -/
lemma gridCell_not_degenerate (w h cols rows r c : ℕ) (hc : 1 ≤ cols)
    (hr : 1 ≤ rows) (hrr : r < rows) (hcc : c < cols) (hwc : cols ≤ w)
    (hhr : rows ≤ h) : ¬ degenerateCell (gridCell w h cols rows r c) := by
  intro hdeg
  rcases hdeg with h1 | h1
  · have hlt := gridBoundary_lt_succ w cols c hc hwc hcc
    have hlw := gridBoundary_lt_last w cols c hc hwc hcc
    have hmin : (gridCell w h cols rows r c).left <
        (gridCell w h cols rows r c).right := by
      simp only [gridCell]
      exact lt_min hlt hlw
    simp only [gridCell] at h1 hmin
    omega
  · have hlt := gridBoundary_lt_succ h rows r hr hhr hrr
    have hlw := gridBoundary_lt_last h rows r hr hhr hrr
    have hmin : (gridCell w h cols rows r c).upper <
        (gridCell w h cols rows r c).lower := by
      simp only [gridCell]
      exact lt_min hlt hlw
    simp only [gridCell] at h1 hmin
    omega

/-- The candidate-cell list rewritten as a single indexed map. -/
lemma gridCells_eq_map (w h cols rows : ℕ) (hc : 1 ≤ cols) :
    gridCells w h cols rows =
      (List.range (rows * cols)).map
        (fun i => gridCell w h cols rows (i / cols) (i % cols)) := by
  simp only [gridCells]
  exact flatMap_range_map_eq (fun r c => gridCell w h cols rows r c) rows cols hc

/-- Claim C1: for every image size `(w, h)` and every `cols, rows ≥ 1`, the
grid partitioner produces exactly `cols * rows` candidate cells in row-major
order (the cell of grid position `(r, c)` sits at list index `r * cols + c`),
each candidate cell lying within `[0, w] × [0, h]`, and the cells tile the
image exactly: in each row consecutive cells share their vertical boundary,
the first cell starts at `0` and the last ends at `w`, and likewise for
columns — so the non-degenerate cells cover the image with no gaps and no
overlaps (the at most ±1px rounding seams allowed by the claim are in fact
exact, zero-width seams). -/
theorem grid_partitioner_cells (w h cols rows : ℕ) (hc : 1 ≤ cols)
    (hr : 1 ≤ rows) :
    ((gridCells w h cols rows).length = cols * rows)
    ∧ (∀ r c, r < rows → c < cols →
        (gridCells w h cols rows)[r * cols + c]? =
          some (gridCell w h cols rows r c))
    ∧ (∀ r c, r < rows → c < cols →
        0 ≤ (gridCell w h cols rows r c).left
        ∧ (gridCell w h cols rows r c).left ≤ (w : ℤ)
        ∧ 0 ≤ (gridCell w h cols rows r c).right
        ∧ (gridCell w h cols rows r c).right ≤ (w : ℤ)
        ∧ 0 ≤ (gridCell w h cols rows r c).upper
        ∧ (gridCell w h cols rows r c).upper ≤ (h : ℤ)
        ∧ 0 ≤ (gridCell w h cols rows r c).lower
        ∧ (gridCell w h cols rows r c).lower ≤ (h : ℤ))
    ∧ (∀ r c, r < rows → c + 1 < cols →
        (gridCell w h cols rows r c).right =
          (gridCell w h cols rows r (c + 1)).left)
    ∧ (∀ r, r < rows →
        (gridCell w h cols rows r 0).left = 0
        ∧ (gridCell w h cols rows r (cols - 1)).right = (w : ℤ))
    ∧ (∀ r c, r + 1 < rows → c < cols →
        (gridCell w h cols rows r c).lower =
          (gridCell w h cols rows (r + 1) c).upper)
    ∧ (∀ c, c < cols →
        (gridCell w h cols rows 0 c).upper = 0
        ∧ (gridCell w h cols rows (rows - 1) c).lower = (h : ℤ)) := by
  have hpw : (0 : ℤ) ≤ (w : ℤ) := Int.natCast_nonneg w
  have hph : (0 : ℤ) ≤ (h : ℤ) := Int.natCast_nonneg h
  refine ⟨?_, ?_, ?_, ?_, ?_, ?_, ?_⟩
  · rw [gridCells_eq_map w h cols rows hc]
    simp [Nat.mul_comm]
  · intro r c hrr hcc
    rw [gridCells_eq_map w h cols rows hc]
    have h2 : r * cols + c < (r + 1) * cols := by
      rw [Nat.succ_mul]
      omega
    have h1 : (r + 1) * cols ≤ rows * cols := Nat.mul_le_mul_right cols hrr
    have hlt : r * cols + c < rows * cols := lt_of_lt_of_le h2 h1
    rw [List.getElem?_map, List.getElem?_range hlt]
    have hdiv : (r * cols + c) / cols = r := by
      rw [Nat.mul_comm r cols, Nat.mul_add_div (by omega)]
      simp [Nat.div_eq_of_lt hcc]
    have hmod : (r * cols + c) % cols = c := by
      rw [Nat.mul_comm r cols, Nat.mul_add_mod]
      exact Nat.mod_eq_of_lt hcc
    simp [hdiv, hmod]
  · intro r c hrr hcc
    have hcastc : ((c : ℚ) + 1) = (((c + 1 : ℕ)) : ℚ) := by push_cast; ring
    have hcastr : ((r : ℚ) + 1) = (((r + 1 : ℕ)) : ℚ) := by push_cast; ring
    simp only [gridCell, hcastc, hcastr]
    refine ⟨gridBoundary_nonneg w cols c,
      gridBoundary_le w cols c hc (le_of_lt hcc),
      le_min (gridBoundary_nonneg w cols (c + 1)) hpw,
      min_le_right _ _,
      gridBoundary_nonneg h rows r,
      gridBoundary_le h rows r hr (le_of_lt hrr),
      le_min (gridBoundary_nonneg h rows (r + 1)) hph,
      min_le_right _ _⟩
  · intro r c hrr hcc1
    have hcastc : ((c : ℚ) + 1) = (((c + 1 : ℕ)) : ℚ) := by push_cast; ring
    simp only [gridCell, hcastc]
    exact min_eq_left (gridBoundary_le w cols (c + 1) hc (by omega))
  · intro r hrr
    constructor
    · have h0 : pyRound ((0 : ℚ)) = 0 := by simpa using pyRound_natCast 0
      simp only [gridCell, Nat.cast_zero, zero_mul]
      exact h0
    · have hcast : (((cols - 1 : ℕ)) : ℚ) + 1 = (cols : ℚ) := by
        rw [Nat.cast_sub hc]
        ring
      simp only [gridCell, hcast]
      rw [gridBoundary_last w cols hc]
      exact min_self _
  · intro r c hrr1 hcc
    have hcastr : ((r : ℚ) + 1) = (((r + 1 : ℕ)) : ℚ) := by push_cast; ring
    simp only [gridCell, hcastr]
    exact min_eq_left (gridBoundary_le h rows (r + 1) hr (by omega))
  · intro c hcc
    constructor
    · have h0 : pyRound ((0 : ℚ)) = 0 := by simpa using pyRound_natCast 0
      simp only [gridCell, Nat.cast_zero, zero_mul]
      exact h0
    · have hcast : (((rows - 1 : ℕ)) : ℚ) + 1 = (rows : ℚ) := by
        rw [Nat.cast_sub hr]
        ring
      simp only [gridCell, hcast]
      rw [gridBoundary_last h rows hr]
      exact min_self _

/-- Witness for claim C1 at the concrete input `w = 5, h = 3, cols = 2,
rows = 2`. -/
theorem grid_partitioner_cells_witness :
    (1 ≤ 2)
    ∧ (((gridCells 5 3 2 2).length = 2 * 2)
      ∧ (∀ r c, r < 2 → c < 2 →
          (gridCells 5 3 2 2)[r * 2 + c]? = some (gridCell 5 3 2 2 r c))
      ∧ (∀ r c, r < 2 → c < 2 →
          0 ≤ (gridCell 5 3 2 2 r c).left
          ∧ (gridCell 5 3 2 2 r c).left ≤ (5 : ℤ)
          ∧ 0 ≤ (gridCell 5 3 2 2 r c).right
          ∧ (gridCell 5 3 2 2 r c).right ≤ (5 : ℤ)
          ∧ 0 ≤ (gridCell 5 3 2 2 r c).upper
          ∧ (gridCell 5 3 2 2 r c).upper ≤ (3 : ℤ)
          ∧ 0 ≤ (gridCell 5 3 2 2 r c).lower
          ∧ (gridCell 5 3 2 2 r c).lower ≤ (3 : ℤ))
      ∧ (∀ r c, r < 2 → c + 1 < 2 →
          (gridCell 5 3 2 2 r c).right = (gridCell 5 3 2 2 r (c + 1)).left)
      ∧ (∀ r, r < 2 →
          (gridCell 5 3 2 2 r 0).left = 0
          ∧ (gridCell 5 3 2 2 r (2 - 1)).right = (5 : ℤ))
      ∧ (∀ r c, r + 1 < 2 → c < 2 →
          (gridCell 5 3 2 2 r c).lower = (gridCell 5 3 2 2 (r + 1) c).upper)
      ∧ (∀ c, c < 2 →
          (gridCell 5 3 2 2 0 c).upper = 0
          ∧ (gridCell 5 3 2 2 (2 - 1) c).lower = (3 : ℤ))) :=
  ⟨by norm_num, grid_partitioner_cells 5 3 2 2 (by norm_num) (by norm_num)⟩

/-- Claim C4, amended: a degenerate cell (after clamping) can arise only when
the requested grid is strictly finer than the image in some dimension
(`cols > w` or `rows > h`); it is *not* restricted to trailing-edge positions. -/
theorem grid_degenerate_needs_fine_grid (w h cols rows r c : ℕ)
    (hc : 1 ≤ cols) (hr : 1 ≤ rows) (hrr : r < rows) (hcc : c < cols)
    (hdeg : degenerateCell (gridCell w h cols rows r c)) :
    w < cols ∨ h < rows := by
  by_contra hcon
  push_neg at hcon
  exact gridCell_not_degenerate w h cols rows r c hc hr hrr hcc
    hcon.1 hcon.2 hdeg

/-- Witness for the amended claim C4 at `w = 1, h = 2, cols = 4, rows = 2`,
cell `(r, c) = (0, 0)`. -/
theorem grid_degenerate_needs_fine_grid_witness :
    (1 ≤ 4 ∧ 1 ≤ 2 ∧ 0 < 2 ∧ 0 < 4
      ∧ degenerateCell (gridCell 1 2 4 2 0 0))
    ∧ (1 < 4 ∨ 2 < 2) :=
  ⟨⟨by norm_num, by norm_num, by norm_num, by norm_num,
    by norm_num [degenerateCell, gridCell, pyRound]⟩,
   grid_degenerate_needs_fine_grid 1 2 4 2 0 0 (by norm_num) (by norm_num)
     (by norm_num) (by norm_num)
     (by norm_num [degenerateCell, gridCell, pyRound])⟩

/-- Counterexample to claim C4 as stated: for `w = 1, h = 2, cols = 4,
rows = 2`, the cell at `(r, c) = (0, 0)` is degenerate after clamping, yet
`c ≠ cols - 1` and `r ≠ rows - 1` — a degenerate cell at an interior grid
position. -/
theorem grid_degenerate_trailing_counterexample :
    (1 ≤ 4 ∧ 1 ≤ 2 ∧ 0 < 2 ∧ 0 < 4)
    ∧ degenerateCell (gridCell 1 2 4 2 0 0)
    ∧ ¬((0 : ℕ) = 4 - 1 ∨ (0 : ℕ) = 2 - 1) := by
  refine ⟨by norm_num, ?_, by norm_num⟩
  norm_num [degenerateCell, gridCell, pyRound]

/-! ### Lemmas about the contact-sheet packer -/

/-- When `(i + 1) % cols = 0`, stepping the tile index bumps the row. -/
lemma succ_div_of_wrap {cols i : ℕ} (hc : 1 ≤ cols)
    (hw : (i + 1) % cols = 0) : (i + 1) / cols = i / cols + 1 := by
  obtain ⟨k, hk⟩ := Nat.dvd_of_mod_eq_zero hw
  cases k with
  | zero => omega
  | succ k' =>
    have hi : i = cols * k' + (cols - 1) := by
      rw [Nat.mul_succ] at hk
      omega
    have h1 : (i + 1) / cols = k' + 1 := by
      rw [hk, Nat.mul_div_cancel_left _ (by omega : 0 < cols)]
    have h2 : i / cols = k' := by
      rw [hi, Nat.mul_add_div (by omega : 0 < cols),
        Nat.div_eq_of_lt (by omega : cols - 1 < cols)]
      omega
    omega

/-- Characterization of the rational ceiling of `n / cols` through natural
division data. -/
lemma ceil_div_nat_eq (n cols m s : ℕ) (hc : 1 ≤ cols)
    (hdm : cols * m + s = n + cols - 1) (hs : s < cols) :
    ⌈(n : ℚ) / (cols : ℚ)⌉ = (m : ℤ) := by
  have hk : (0 : ℚ) < (cols : ℚ) := by exact_mod_cast hc
  have hq : (cols : ℚ) * (m : ℚ) + (s : ℚ) = (n : ℚ) + (cols : ℚ) - 1 := by
    have h1 : (((cols * m + s : ℕ)) : ℚ) = (((n + cols - 1 : ℕ)) : ℚ) := by
      rw [hdm]
    rw [Nat.cast_add, Nat.cast_mul,
      Nat.cast_sub (by omega : 1 ≤ n + cols), Nat.cast_add, Nat.cast_one] at h1
    linarith
  have hsq : (0 : ℚ) ≤ (s : ℚ) := by positivity
  have hsq' : (s : ℚ) ≤ (cols : ℚ) - 1 := by
    have h2 : (s : ℚ) + 1 ≤ (cols : ℚ) := by exact_mod_cast hs
    linarith
  rw [Int.ceil_eq_iff]
  constructor
  · push_cast
    rw [lt_div_iff₀ hk]
    nlinarith
  · push_cast
    rw [div_le_iff₀ hk]
    nlinarith

/-- When `(i + 1) % cols ≠ 0`, stepping the tile index stays in the row and
bumps the column. -/
lemma succ_mod_div_of_no_wrap {cols i : ℕ} (hc : 1 ≤ cols)
    (hw : (i + 1) % cols ≠ 0) :
    (i + 1) % cols = i % cols + 1 ∧ (i + 1) / cols = i / cols := by
  have hdm := Nat.div_add_mod i cols
  have hlt : i % cols < cols := Nat.mod_lt _ (by omega)
  rcases Nat.lt_or_ge (i % cols + 1) cols with hin | hout
  · have hi1 : i + 1 = cols * (i / cols) + (i % cols + 1) := by omega
    constructor
    · rw [hi1, Nat.mul_add_mod, Nat.mod_eq_of_lt hin]
    · rw [hi1, Nat.mul_add_div (by omega : 0 < cols),
        Nat.div_eq_of_lt hin]
      omega
  · exfalso
    have hmax : i % cols + 1 = cols := by omega
    have hi1 : i + 1 = cols * (i / cols + 1) := by
      rw [Nat.mul_add, Nat.mul_one]
      omega
    apply hw
    rw [hi1, Nat.mul_mod_right]

/-- Refinement of the incremental placement loop: started at tile index `i`
with the closed-form coordinates for `i`, the loop emits exactly the
closed-form positions of the next `n` tile indices. -/
lemma pasteLoop_eq_map (cols ts pad : ℕ) (hc : 1 ≤ cols) :
    ∀ n i, pasteLoop (cols : ℤ) ts pad n i
        ((pad : ℤ) + ((i % cols : ℕ) : ℤ) * ((ts : ℤ) + (pad : ℤ)))
        ((pad : ℤ) + ((i / cols : ℕ) : ℤ) * ((ts : ℤ) + (pad : ℤ))) =
      (List.range n).map (fun j => pastePosSpec cols ts pad (i + j)) := by
  intro n
  induction n with
  | zero => intro i; simp [pasteLoop]
  | succ m ih =>
    intro i
    have hrange : List.range (m + 1) = 0 :: (List.range m).map Nat.succ :=
      List.range_succ_eq_map m
    rw [hrange]
    simp only [List.map_cons, List.map_map]
    have htail : (List.range m).map
        ((fun j => pastePosSpec cols ts pad (i + j)) ∘ Nat.succ) =
        (List.range m).map (fun j => pastePosSpec cols ts pad (i + 1 + j)) := by
      apply List.map_congr_left
      intro j _
      simp only [Function.comp_apply]
      congr 1
      omega
    rw [htail]
    simp only [pasteLoop]
    have hcond : ((((i : ℤ) + 1) % (cols : ℤ) = 0)) ↔ ((i + 1) % cols = 0) := by
      rw [show ((i : ℤ) + 1) = (((i + 1 : ℕ)) : ℤ) by push_cast; ring,
        ← Int.natCast_mod]
      exact Int.natCast_eq_zero
    by_cases hw : (i + 1) % cols = 0
    · rw [if_pos (hcond.mpr hw)]
      have hdiv := succ_div_of_wrap hc hw
      have hih := ih (i + 1)
      rw [hw, hdiv] at hih
      have hx : ((pad : ℤ) + ((0 : ℕ) : ℤ) * ((ts : ℤ) + (pad : ℤ))) =
          (pad : ℤ) := by push_cast; ring
      have hy : ((pad : ℤ) + ((i / cols + 1 : ℕ) : ℤ) * ((ts : ℤ) + (pad : ℤ)))
          = (pad : ℤ) + ((i / cols : ℕ) : ℤ) * ((ts : ℤ) + (pad : ℤ))
            + (ts : ℤ) + (pad : ℤ) := by push_cast; ring
      rw [hx, hy] at hih
      rw [hih]
      simp only [List.cons.injEq, and_true]
      rfl
    · rw [if_neg (fun hz => hw (hcond.mp hz))]
      obtain ⟨hmod, hdiv⟩ := succ_mod_div_of_no_wrap hc hw
      have hih := ih (i + 1)
      rw [hmod, hdiv] at hih
      have hx : ((pad : ℤ) + ((i % cols + 1 : ℕ) : ℤ) * ((ts : ℤ) + (pad : ℤ)))
          = (pad : ℤ) + ((i % cols : ℕ) : ℤ) * ((ts : ℤ) + (pad : ℤ))
            + (ts : ℤ) + (pad : ℤ) := by push_cast; ring
      rw [hx] at hih
      rw [hih]
      simp only [List.cons.injEq, and_true]
      rfl

/-- Advancing one grid step in a coordinate moves the whole tile past the
previous one. -/
lemma pasteCoord_step (ts pad : ℕ) {a b : ℕ} (hab : a < b) :
    ((pad : ℤ) + (a : ℤ) * ((ts : ℤ) + (pad : ℤ))) + (ts : ℤ) ≤
      (pad : ℤ) + (b : ℤ) * ((ts : ℤ) + (pad : ℤ)) := by
  have h1 : ((a : ℤ) + 1) * ((ts : ℤ) + (pad : ℤ)) ≤
      (b : ℤ) * ((ts : ℤ) + (pad : ℤ)) := by
    apply mul_le_mul_of_nonneg_right
    · exact_mod_cast hab
    · positivity
  have h2 : ((a : ℤ) + 1) * ((ts : ℤ) + (pad : ℤ)) =
      (a : ℤ) * ((ts : ℤ) + (pad : ℤ)) + (ts : ℤ) + (pad : ℤ) := by ring
  have hpad : (0 : ℤ) ≤ (pad : ℤ) := Int.natCast_nonneg pad
  linarith

/-- Two distinct tile indices get non-intersecting `ts × ts` rectangles. -/
lemma pastePosSpec_disjoint (cols ts pad i j : ℕ) (hc : 1 ≤ cols)
    (hij : i ≠ j) :
    (pastePosSpec cols ts pad i).1 + (ts : ℤ) ≤ (pastePosSpec cols ts pad j).1
    ∨ (pastePosSpec cols ts pad j).1 + (ts : ℤ) ≤ (pastePosSpec cols ts pad i).1
    ∨ (pastePosSpec cols ts pad i).2 + (ts : ℤ) ≤ (pastePosSpec cols ts pad j).2
    ∨ (pastePosSpec cols ts pad j).2 + (ts : ℤ) ≤ (pastePosSpec cols ts pad i).2
    := by
  rcases lt_trichotomy (i % cols) (j % cols) with hm | hm | hm
  · exact Or.inl (pasteCoord_step ts pad hm)
  · have hdne : i / cols ≠ j / cols := by
      intro hdeq
      apply hij
      have hi := Nat.div_add_mod i cols
      have hj := Nat.div_add_mod j cols
      rw [hdeq, hm] at hi
      omega
    rcases Nat.lt_or_ge (i / cols) (j / cols) with hd | hd
    · exact Or.inr (Or.inr (Or.inl (pasteCoord_step ts pad hd)))
    · have hd' : j / cols < i / cols := by omega
      exact Or.inr (Or.inr (Or.inr (pasteCoord_step ts pad hd')))
  · exact Or.inr (Or.inl (pasteCoord_step ts pad hm))

/-- `previewRows` is nonnegative. -/
lemma previewRows_nonneg (n cols : ℕ) : 0 ≤ previewRows n (cols : ℤ) := by
  unfold previewRows
  apply Int.ceil_nonneg
  positivity

/-- For `cols ≥ 1`, `build_preview` succeeds and returns the canvas size
together with the loop-produced positions. -/
lemma build_preview_ok (n cols ts pad : ℕ) (hc : 1 ≤ cols) :
    build_preview n (cols : ℤ) ts pad =
      Except.ok (previewW (cols : ℤ) ts pad, previewH n (cols : ℤ) ts pad,
        pasteLoop (cols : ℤ) ts pad n 0 (pad : ℤ) (pad : ℤ)) := by
  have hcz : ((cols : ℤ)) ≠ 0 := by
    have : (0 : ℤ) < (cols : ℤ) := by exact_mod_cast hc
    omega
  have hc0 : (0 : ℤ) ≤ (cols : ℤ) := Int.natCast_nonneg cols
  have hts : (0 : ℤ) ≤ (ts : ℤ) := Int.natCast_nonneg ts
  have hpad : (0 : ℤ) ≤ (pad : ℤ) := Int.natCast_nonneg pad
  have hW : 0 ≤ previewW (cols : ℤ) ts pad := by
    unfold previewW
    have := mul_nonneg hc0 hts
    have := mul_nonneg (by omega : (0 : ℤ) ≤ (cols : ℤ) + 1) hpad
    omega
  have hrows := previewRows_nonneg n cols
  have hH : 0 ≤ previewH n (cols : ℤ) ts pad := by
    unfold previewH
    have := mul_nonneg hrows hts
    have := mul_nonneg (by omega : (0 : ℤ) ≤ previewRows n (cols : ℤ) + 1) hpad
    omega
  unfold build_preview
  rw [if_neg hcz, if_neg (by push_neg; omega)]

/-- `previewRows` agrees with the integer ceiling division
`(n + cols - 1) / cols`. -/
lemma previewRows_eq_ceilDiv (n cols : ℕ) (hc : 1 ≤ cols) :
    previewRows n (cols : ℤ) = (((n + cols - 1) / cols : ℕ) : ℤ) := by
  unfold previewRows
  exact ceil_div_nat_eq n cols _ _ hc (Nat.div_add_mod (n + cols - 1) cols)
    (Nat.mod_lt _ (by omega))

/-- Claim C2: for every tile count `n` and every `cols ≥ 1`, tile size and
padding, `build_preview` succeeds and the preview raster is exactly
`cols*tile_size + (cols+1)*padding` wide and `rows*tile_size +
(rows+1)*padding` tall, where `rows = ceil(n / cols)` (equivalently the
integer ceiling division `(n + cols - 1) / cols`). -/
theorem preview_dimensions (n cols ts pad : ℕ) (hc : 1 ≤ cols) :
    build_preview n (cols : ℤ) ts pad =
      Except.ok (previewW (cols : ℤ) ts pad, previewH n (cols : ℤ) ts pad,
        pasteLoop (cols : ℤ) ts pad n 0 (pad : ℤ) (pad : ℤ))
    ∧ previewW (cols : ℤ) ts pad = (cols : ℤ) * ts + ((cols : ℤ) + 1) * pad
    ∧ previewH n (cols : ℤ) ts pad =
        previewRows n (cols : ℤ) * ts + (previewRows n (cols : ℤ) + 1) * pad
    ∧ previewRows n (cols : ℤ) = ⌈(n : ℚ) / (cols : ℚ)⌉
    ∧ previewRows n (cols : ℤ) = (((n + cols - 1) / cols : ℕ) : ℤ) :=
  ⟨build_preview_ok n cols ts pad hc, rfl, rfl, rfl,
    previewRows_eq_ceilDiv n cols hc⟩

/-- Witness for claim C2 at the example of the spec: `n = 4, cols = 8,
tile_size = 50, padding = 2`. -/
theorem preview_dimensions_witness :
    (1 ≤ 8)
    ∧ (build_preview 4 (8 : ℤ) 50 2 =
        Except.ok (previewW (8 : ℤ) 50 2, previewH 4 (8 : ℤ) 50 2,
          pasteLoop (8 : ℤ) 50 2 4 0 (2 : ℤ) (2 : ℤ))
      ∧ previewW (8 : ℤ) 50 2 = (8 : ℤ) * 50 + ((8 : ℤ) + 1) * 2
      ∧ previewH 4 (8 : ℤ) 50 2 =
          previewRows 4 (8 : ℤ) * 50 + (previewRows 4 (8 : ℤ) + 1) * 2
      ∧ previewRows 4 (8 : ℤ) = ⌈(4 : ℚ) / (8 : ℚ)⌉
      ∧ previewRows 4 (8 : ℤ) = (((4 + 8 - 1) / 8 : ℕ) : ℤ)) := by
  constructor
  · norm_num
  · have h := preview_dimensions 4 8 50 2 (by norm_num)
    push_cast at h ⊢
    exact h

/-- Claim C3: for `cols ≥ 1` and `padding ≥ 1`, the incremental x/y placement
loop of the contact-sheet packer refines the closed-form positions
`x = padding + (i mod cols)*(tile_size+padding)`,
`y = padding + (i div cols)*(tile_size+padding)`, and the placed
`tile_size × tile_size` rectangles of distinct tile indices never intersect. -/
theorem preview_paste_positions (n cols ts pad : ℕ) (hc : 1 ≤ cols)
    (hp : 1 ≤ pad) :
    (pasteLoop (cols : ℤ) ts pad n 0 (pad : ℤ) (pad : ℤ) =
      (List.range n).map (fun i => pastePosSpec cols ts pad i))
    ∧ (∀ i, i < n →
        (pasteLoop (cols : ℤ) ts pad n 0 (pad : ℤ) (pad : ℤ))[i]? =
          some (pastePosSpec cols ts pad i))
    ∧ (∀ i j, i ≠ j →
        (pastePosSpec cols ts pad i).1 + (ts : ℤ) ≤
            (pastePosSpec cols ts pad j).1
          ∨ (pastePosSpec cols ts pad j).1 + (ts : ℤ) ≤
            (pastePosSpec cols ts pad i).1
          ∨ (pastePosSpec cols ts pad i).2 + (ts : ℤ) ≤
            (pastePosSpec cols ts pad j).2
          ∨ (pastePosSpec cols ts pad j).2 + (ts : ℤ) ≤
            (pastePosSpec cols ts pad i).2) := by
  have hmain := pasteLoop_eq_map cols ts pad hc n 0
  simp only [Nat.zero_mod, Nat.zero_div, Nat.cast_zero, zero_mul, add_zero,
    Nat.zero_add] at hmain
  refine ⟨hmain, fun i hi => ?_,
    fun i j hij => pastePosSpec_disjoint cols ts pad i j hc hij⟩
  rw [hmain, List.getElem?_map, List.getElem?_range hi]
  rfl

/-- Witness for claim C3 at `n = 5, cols = 2, tile_size = 10, padding = 2`. -/
theorem preview_paste_positions_witness :
    (1 ≤ 2 ∧ 1 ≤ 2)
    ∧ ((pasteLoop (2 : ℤ) 10 2 5 0 (2 : ℤ) (2 : ℤ) =
        (List.range 5).map (fun i => pastePosSpec 2 10 2 i))
      ∧ (∀ i, i < 5 →
          (pasteLoop (2 : ℤ) 10 2 5 0 (2 : ℤ) (2 : ℤ))[i]? =
            some (pastePosSpec 2 10 2 i))
      ∧ (∀ i j, i ≠ j →
          (pastePosSpec 2 10 2 i).1 + (10 : ℤ) ≤ (pastePosSpec 2 10 2 j).1
            ∨ (pastePosSpec 2 10 2 j).1 + (10 : ℤ) ≤ (pastePosSpec 2 10 2 i).1
            ∨ (pastePosSpec 2 10 2 i).2 + (10 : ℤ) ≤ (pastePosSpec 2 10 2 j).2
            ∨ (pastePosSpec 2 10 2 j).2 + (10 : ℤ) ≤
              (pastePosSpec 2 10 2 i).2)) := by
  constructor
  · norm_num
  · have h := preview_paste_positions 5 2 10 2 (by norm_num) (by norm_num)
    push_cast at h ⊢
    exact h

/-- Claim C6: when the source path does not name a readable, decodable image
(the `isfile` test fails or decoding fails), the tile tool exits with code 1
and no output directory, tile file or preview exists. -/
theorem source_failure_aborts_without_output (sourceIsFile decodeOk : Bool)
    (w h : ℕ) (argCols argRows : ℤ) (ts : ℕ) (previewCols : ℤ) (pf : Bool)
    (hfail : sourceIsFile = false ∨ decodeOk = false) :
    (tileMain sourceIsFile decodeOk w h argCols argRows ts previewCols
        pf).exitCode = 1
    ∧ (tileMain sourceIsFile decodeOk w h argCols argRows ts previewCols
        pf).dirCreated = false
    ∧ (tileMain sourceIsFile decodeOk w h argCols argRows ts previewCols
        pf).tileFiles = []
    ∧ (tileMain sourceIsFile decodeOk w h argCols argRows ts previewCols
        pf).previewSaved = false
    ∧ (tileMain sourceIsFile decodeOk w h argCols argRows ts previewCols
        pf).fatalMessagePrinted = true := by
  rcases hfail with hf | hf
  · subst hf
    simp [tileMain]
  · subst hf
    cases sourceIsFile <;> simp [tileMain]

/-- Witness for claim C6: an unreadable source (`sourceIsFile = false`). -/
theorem source_failure_aborts_without_output_witness :
    ((false : Bool) = false ∨ (true : Bool) = false)
    ∧ ((tileMain false true 10 10 8 5 256 8 false).exitCode = 1
      ∧ (tileMain false true 10 10 8 5 256 8 false).dirCreated = false
      ∧ (tileMain false true 10 10 8 5 256 8 false).tileFiles = []
      ∧ (tileMain false true 10 10 8 5 256 8 false).previewSaved = false
      ∧ (tileMain false true 10 10 8 5 256 8 false).fatalMessagePrinted
          = true) :=
  ⟨Or.inl rfl,
    source_failure_aborts_without_output false true 10 10 8 5 256 8 false
      (Or.inl rfl)⟩

/-- Claim C7: when building or saving the preview fails, the run still exits
with code 0 and the tile files written before the failure are exactly the
non-degenerate tiles — unchanged with respect to a run whose preview save
succeeds; a save failure means the preview is simply not saved. -/
theorem preview_failure_keeps_tiles_and_exit (w h : ℕ)
    (argCols argRows : ℤ) (ts : ℕ) (previewCols : ℤ) (pf : Bool) :
    (tileMain true true w h argCols argRows ts previewCols pf).exitCode = 0
    ∧ (tileMain true true w h argCols argRows ts previewCols pf).tileFiles =
        (nondegPositions w h (max 1 argCols).toNat (max 1 argRows).toNat).map
          (fun p => tileFileName p.1 p.2)
    ∧ (tileMain true true w h argCols argRows ts previewCols true).tileFiles =
        (tileMain true true w h argCols argRows ts previewCols
          false).tileFiles
    ∧ (tileMain true true w h argCols argRows ts previewCols
        true).previewSaved = false
    ∧ (tileMain true true w h argCols argRows ts previewCols
        true).previewFailureLogged = true := by
  refine ⟨?_, ?_, ?_, ?_, ?_⟩ <;> simp [tileMain]

/-- Claim C9: the tile tool never validates `preview_cols`: with
`preview_cols = 0` the row computation `ceil(len(tiles) / cols)` raises a
`ZeroDivisionError`, which is caught — the run still exits with code 0, all
tiles are on disk, and only the preview is missing. -/
theorem preview_cols_zero_caught (n w h ts : ℕ) (argCols argRows : ℤ)
    (pf : Bool) :
    build_preview n 0 ts 2 = Except.error "ZeroDivisionError: division by zero"
    ∧ (tileMain true true w h argCols argRows ts 0 pf).exitCode = 0
    ∧ (tileMain true true w h argCols argRows ts 0 pf).tileFiles =
        (nondegPositions w h (max 1 argCols).toNat (max 1 argRows).toNat).map
          (fun p => tileFileName p.1 p.2)
    ∧ (tileMain true true w h argCols argRows ts 0 pf).previewSaved = false
    ∧ (tileMain true true w h argCols argRows ts 0 pf).previewFailureLogged
        = true := by
  refine ⟨rfl, ?_, ?_, ?_, ?_⟩ <;> simp [tileMain, build_preview, Except.isOk,
    Except.toBool]

/-! ### Lemmas about the average-color sampler -/

/-- Every triangle-filter weight inside the region is strictly positive. -/
lemma triWeight_pos (n i : ℕ) (hi : i < n) : 0 < triWeight n i := by
  unfold triWeight
  have hn : (1 : ℚ) ≤ (n : ℚ) := by exact_mod_cast Nat.one_le_iff_ne_zero.mpr (by omega)
  have hi' : (i : ℚ) + 1 ≤ (n : ℚ) := by exact_mod_cast hi
  have hi0 : (0 : ℚ) ≤ (i : ℚ) := by positivity
  have habs : |(i : ℚ) + 1/2 - (n : ℚ)/2| < (n : ℚ) := by
    rw [abs_lt]
    constructor <;> linarith
  have hdiv : |(i : ℚ) + 1/2 - (n : ℚ)/2| / (n : ℚ) < 1 :=
    (div_lt_one (by linarith)).mpr habs
  linarith

/-- The total filter weight of a nonempty axis is strictly positive. -/
lemma weightSum_pos (n : ℕ) (hn : 1 ≤ n) : 0 < weightSum n := by
  unfold weightSum
  apply Finset.sum_pos
  · intro i hi
    exact triWeight_pos n i (Finset.mem_range.mp hi)
  · exact Finset.nonempty_range_iff.mpr (by omega)

/-- Resampling a constant channel returns the constant exactly. -/
lemma resampleChannel_const (w h : ℕ) (hw : 1 ≤ w) (hh : 1 ≤ h)
    (ch : ℕ → ℕ → ℕ) (v : ℕ) (hv : v ≤ 255)
    (hconst : ∀ x, x < w → ∀ y, y < h → ch x y = v) :
    resampleChannel w h ch = v := by
  unfold resampleChannel
  have hWw := weightSum_pos w hw
  have hWh := weightSum_pos h hh
  have hS : weightSum w * weightSum h ≠ 0 := ne_of_gt (mul_pos hWw hWh)
  have hsum : (∑ x ∈ Finset.range w, ∑ y ∈ Finset.range h,
      triWeight w x * triWeight h y * (ch x y : ℚ)) =
      (v : ℚ) * (weightSum w * weightSum h) := by
    have h1 : ∀ x ∈ Finset.range w,
        (∑ y ∈ Finset.range h, triWeight w x * triWeight h y * (ch x y : ℚ)) =
        (∑ y ∈ Finset.range h, triWeight w x * triWeight h y) * (v : ℚ) := by
      intro x hx
      rw [Finset.sum_mul]
      apply Finset.sum_congr rfl
      intro y hy
      rw [hconst x (Finset.mem_range.mp hx) y (Finset.mem_range.mp hy)]
    rw [Finset.sum_congr rfl h1, ← Finset.sum_mul, ← Finset.sum_mul_sum]
    unfold weightSum
    ring
  rw [hsum, mul_div_assoc, div_self hS, mul_one, pyRound_natCast]
  unfold clip8
  have hv0 : (0 : ℤ) ≤ (v : ℤ) := Int.natCast_nonneg v
  have hv255 : (v : ℤ) ≤ 255 := by exact_mod_cast hv
  rw [max_eq_right hv0, min_eq_right hv255]
  exact Int.toNat_natCast v

/-- Claim C5: the average-color sampler (1×1 bilinear downscale) of a
non-empty region all of whose pixels equal one constant 8-bit RGB color `C`
returns exactly `C`. -/
theorem average_color_constant (w h : ℕ) (px : ℕ → ℕ → RGB) (C : RGB)
    (hw : 1 ≤ w) (hh : 1 ≤ h)
    (hr : C.r ≤ 255) (hg : C.g ≤ 255) (hb : C.b ≤ 255)
    (hconst : ∀ x, x < w → ∀ y, y < h → px x y = C) :
    average_color w h px = C := by
  unfold average_color
  obtain ⟨cr, cg, cb⟩ := C
  simp only [RGB.mk.injEq]
  refine ⟨?_, ?_, ?_⟩
  · exact resampleChannel_const w h hw hh _ cr hr
      (fun x hx y hy => by rw [hconst x hx y hy])
  · exact resampleChannel_const w h hw hh _ cg hg
      (fun x hx y hy => by rw [hconst x hx y hy])
  · exact resampleChannel_const w h hw hh _ cb hb
      (fun x hx y hy => by rw [hconst x hx y hy])

/-- Witness for claim C5: a 2×3 region uniformly colored `(10, 20, 30)`. -/
theorem average_color_constant_witness :
    (1 ≤ 2 ∧ 1 ≤ 3 ∧ 10 ≤ 255 ∧ 20 ≤ 255 ∧ 30 ≤ 255
      ∧ ∀ x, x < 2 → ∀ y, y < 3 →
          (fun (_ _ : ℕ) => RGB.mk 10 20 30) x y = RGB.mk 10 20 30)
    ∧ average_color 2 3 (fun _ _ => RGB.mk 10 20 30) = RGB.mk 10 20 30 :=
  ⟨⟨by norm_num, by norm_num, by norm_num, by norm_num, by norm_num,
    fun x _ y _ => rfl⟩,
   average_color_constant 2 3 (fun _ _ => RGB.mk 10 20 30) (RGB.mk 10 20 30)
     (by norm_num) (by norm_num) (by norm_num) (by norm_num) (by norm_num)
     (fun x _ y _ => rfl)⟩

/-! ### Lemmas about the block-image generator -/

/-- Pixel-level semantics of the inner `for y` loop. -/
lemma paintColumn_apply (x0 y0 bs : ℕ) (c : RGB) (img : ℕ → ℕ → RGB)
    (x y : ℕ) :
    paintColumn x0 y0 bs c img x y =
      if x = x0 ∧ y0 ≤ y ∧ y < y0 + bs then c else img x y := by
  induction bs with
  | zero =>
    unfold paintColumn
    simp only [List.range_zero, List.foldl_nil]
    rw [if_neg (by omega)]
  | succ b ih =>
    unfold paintColumn at ih ⊢
    rw [List.range_succ, List.foldl_append]
    simp only [List.foldl_cons, List.foldl_nil]
    simp only [setPixel]
    rw [ih]
    split_ifs <;> first | rfl | omega

/-- Pixel-level semantics of a run of `n` painted columns starting at `x0`. -/
lemma paintRows_apply (y0 bs : ℕ) (c : RGB) :
    ∀ n x0 (img : ℕ → ℕ → RGB) x y,
      ((List.range n).foldl
        (fun im dx => paintColumn (x0 + dx) y0 bs c im) img) x y =
      if x0 ≤ x ∧ x < x0 + n ∧ y0 ≤ y ∧ y < y0 + bs then c else img x y := by
  intro n
  induction n with
  | zero =>
    intro x0 img x y
    simp only [List.range_zero, List.foldl_nil]
    rw [if_neg (by omega)]
  | succ m ih =>
    intro x0 img x y
    rw [List.range_succ, List.foldl_append]
    simp only [List.foldl_cons, List.foldl_nil]
    rw [paintColumn_apply, ih]
    split_ifs <;> first | rfl | omega

/-- Pixel-level semantics of painting one logical block. -/
lemma paintBlock_apply (bs bx b1 : ℕ) (c : RGB) (img : ℕ → ℕ → RGB)
    (x y : ℕ) :
    paintBlock bs bx b1 c img x y =
      if bx * bs ≤ x ∧ x < (bx + 1) * bs ∧ b1 * bs ≤ y ∧ y < (b1 + 1) * bs
      then c else img x y := by
  unfold paintBlock
  rw [paintRows_apply]
  have h1 : (bx + 1) * bs = bx * bs + bs := by ring
  have h2 : (b1 + 1) * bs = b1 * bs + bs := by ring
  rw [h1, h2]

/-- Pixel-level semantics of painting the blocks of one column stripe `bx`. -/
lemma genInner_apply (bs bx : ℕ) (colors : ℕ → ℕ → RGB) :
    ∀ m (img : ℕ → ℕ → RGB) x y,
      ((List.range m).foldl
        (fun im2 b1 => paintBlock bs bx b1 (colors bx b1) im2) img) x y =
      if bx * bs ≤ x ∧ x < (bx + 1) * bs ∧ y < m * bs
      then colors bx (y / bs) else img x y := by
  intro m
  induction m with
  | zero =>
    intro img x y
    simp only [List.range_zero, List.foldl_nil]
    rw [if_neg (by omega)]
  | succ m ih =>
    intro img x y
    rw [List.range_succ, List.foldl_append]
    simp only [List.foldl_cons, List.foldl_nil]
    rw [paintBlock_apply, ih]
    have hexp : (m + 1) * bs = m * bs + bs := by ring
    by_cases hnew : bx * bs ≤ x ∧ x < (bx + 1) * bs ∧ m * bs ≤ y ∧
        y < (m + 1) * bs
    · rw [if_pos hnew, if_pos ⟨hnew.1, hnew.2.1, hnew.2.2.2⟩,
        Nat.div_eq_of_lt_le hnew.2.2.1 hnew.2.2.2]
    · rw [if_neg hnew]
      by_cases hold : bx * bs ≤ x ∧ x < (bx + 1) * bs ∧ y < m * bs
      · rw [if_pos hold, if_pos ⟨hold.1, hold.2.1, by omega⟩]
      · rw [if_neg hold, if_neg (by omega)]

/-- Pixel-level semantics of painting the first `m` column stripes. -/
lemma genOuter_apply (bs height : ℕ) (colors : ℕ → ℕ → RGB) :
    ∀ m (img : ℕ → ℕ → RGB) x y,
      ((List.range m).foldl
        (fun im bx => (List.range height).foldl
          (fun im2 b1 => paintBlock bs bx b1 (colors bx b1) im2) im) img) x y =
      if x < m * bs ∧ y < height * bs
      then colors (x / bs) (y / bs) else img x y := by
  intro m
  induction m with
  | zero =>
    intro img x y
    simp only [List.range_zero, List.foldl_nil]
    rw [if_neg (by omega)]
  | succ m ih =>
    intro img x y
    rw [List.range_succ, List.foldl_append]
    simp only [List.foldl_cons, List.foldl_nil]
    rw [genInner_apply, ih]
    have hexp : (m + 1) * bs = m * bs + bs := by ring
    by_cases hnew : m * bs ≤ x ∧ x < (m + 1) * bs ∧ y < height * bs
    · rw [if_pos ⟨hnew.1, hnew.2.1, hnew.2.2⟩,
        if_pos ⟨by omega, hnew.2.2⟩,
        Nat.div_eq_of_lt_le hnew.1 hnew.2.1]
    · rw [if_neg (by omega)]
      by_cases hold : x < m * bs ∧ y < height * bs
      · rw [if_pos hold, if_pos ⟨by omega, hold.2⟩]
      · rw [if_neg hold, if_neg (by omega)]

/-- Pixel-level semantics of the whole block image: inside the canvas, pixel
`(x, y)` carries the color of block `(x / bs, y / bs)`; outside it stays at
the allocation default black. -/
lemma generate_apply (width height bs : ℕ) (colors : ℕ → ℕ → RGB)
    (x y : ℕ) :
    generate_random_image width height bs colors x y =
      if x < width * bs ∧ y < height * bs then colors (x / bs) (y / bs)
      else { r := 0, g := 0, b := 0 } := by
  unfold generate_random_image
  rw [genOuter_apply]

/-- Claim C10: painting logical block `(bx, b1)` writes its color to every
pixel of the half-open square `[bx*bs, (bx+1)*bs) × [b1*bs, (b1+1)*bs)` and
leaves every other pixel unchanged; for `bs ≥ 1` the squares of distinct
blocks are pairwise disjoint, and every pixel of the `width*bs × height*bs`
canvas lies in the square of exactly one block, namely `(x / bs, y / bs)` —
so every pixel is assigned a color exactly once. -/
theorem paint_block_effects (bs : ℕ) (hbs : 1 ≤ bs) :
    (∀ bx b1 c (img : ℕ → ℕ → RGB) x y, inSquare bs bx b1 x y →
        paintBlock bs bx b1 c img x y = c)
    ∧ (∀ bx b1 c (img : ℕ → ℕ → RGB) x y, ¬ inSquare bs bx b1 x y →
        paintBlock bs bx b1 c img x y = img x y)
    ∧ (∀ bx b1 bx' b1' x y, bx ≠ bx' ∨ b1 ≠ b1' →
        ¬ (inSquare bs bx b1 x y ∧ inSquare bs bx' b1' x y))
    ∧ (∀ width height x y, x < width * bs → y < height * bs →
        (x / bs < width ∧ y / bs < height ∧ inSquare bs (x / bs) (y / bs) x y)
        ∧ ∀ bx b1, inSquare bs bx b1 x y → bx = x / bs ∧ b1 = y / bs) := by
  have huniq : ∀ bx b1 x y, inSquare bs bx b1 x y →
      bx = x / bs ∧ b1 = y / bs := by
    intro bx b1 x y hsq
    obtain ⟨h1, h2, h3, h4⟩ := hsq
    exact ⟨(Nat.div_eq_of_lt_le h1 h2).symm, (Nat.div_eq_of_lt_le h3 h4).symm⟩
  refine ⟨?_, ?_, ?_, ?_⟩
  · intro bx b1 c img x y hsq
    obtain ⟨h1, h2, h3, h4⟩ := hsq
    rw [paintBlock_apply, if_pos ⟨h1, h2, h3, h4⟩]
  · intro bx b1 c img x y hsq
    rw [paintBlock_apply, if_neg (fun hc => hsq ⟨hc.1, hc.2.1, hc.2.2.1,
      hc.2.2.2⟩)]
  · intro bx b1 bx' b1' x y hne hboth
    obtain ⟨e1, e2⟩ := huniq _ _ _ _ hboth.1
    obtain ⟨e1', e2'⟩ := huniq _ _ _ _ hboth.2
    have hbx : bx = bx' := e1.trans e1'.symm
    have hb1 : b1 = b1' := e2.trans e2'.symm
    rcases hne with hne | hne <;> exact hne (by assumption)
  · intro width height x y hx hy
    have hdm : bs * (x / bs) + x % bs = x := Nat.div_add_mod x bs
    have hmx : x % bs < bs := Nat.mod_lt _ (by omega)
    have hdmy : bs * (y / bs) + y % bs = y := Nat.div_add_mod y bs
    have hmy : y % bs < bs := Nat.mod_lt _ (by omega)
    have hsq : inSquare bs (x / bs) (y / bs) x y := by
      refine ⟨Nat.div_mul_le_self x bs, ?_, Nat.div_mul_le_self y bs, ?_⟩
      · have hexp : (x / bs + 1) * bs = bs * (x / bs) + bs := by ring
        omega
      · have hexp : (y / bs + 1) * bs = bs * (y / bs) + bs := by ring
        omega
    refine ⟨⟨?_, ?_, hsq⟩, fun bx b1 h => huniq _ _ _ _ h⟩
    · exact (Nat.div_lt_iff_lt_mul (by omega)).mpr hx
    · exact (Nat.div_lt_iff_lt_mul (by omega)).mpr hy

/-- Claim C8: for every `width, height, bs ≥ 1` and `count ≥ 0`, the block
tool produces exactly `count` images, the `i`-th (0-based) named
`{prefix}{i+1}.png`, each a `width*bs × height*bs` raster in which every
block square is filled with the single color drawn for that block — all
pixels of one block are identical. -/
theorem block_tool_output (width height bs count : ℕ) (pre : String)
    (colors : ℕ → ℕ → ℕ → RGB) (hw : 1 ≤ width) (hh : 1 ≤ height)
    (hbs : 1 ≤ bs) :
    ((blockMain width height bs count pre colors).length = count)
    ∧ (∀ i, i < count →
        (blockMain width height bs count pre colors)[i]? =
          some (blockImageName pre (i + 1), width * bs, height * bs,
            generate_random_image width height bs (colors i)))
    ∧ (∀ i bx b1 x y, bx < width → b1 < height → inSquare bs bx b1 x y →
        generate_random_image width height bs (colors i) x y =
          colors i bx b1) := by
  refine ⟨by simp [blockMain], ?_, ?_⟩
  · intro i hi
    unfold blockMain
    rw [List.getElem?_map, List.getElem?_range hi]
    rfl
  · intro i bx b1 x y hbx hb1 hsq
    obtain ⟨h1, h2, h3, h4⟩ := hsq
    have hx : x < width * bs := lt_of_lt_of_le h2 (Nat.mul_le_mul_right bs hbx)
    have hy : y < height * bs :=
      lt_of_lt_of_le h4 (Nat.mul_le_mul_right bs hb1)
    rw [generate_apply, if_pos ⟨hx, hy⟩,
      Nat.div_eq_of_lt_le h1 h2, Nat.div_eq_of_lt_le h3 h4]

/-- Witness for claim C8 at the example of the spec: `width = 4, height = 4,
bs = 10, count = 1` with a concrete color table. -/
theorem block_tool_output_witness :
    (1 ≤ 4 ∧ 1 ≤ 4 ∧ 1 ≤ 10)
    ∧ (((blockMain 4 4 10 1 "random_image_"
          (fun _ _ _ => RGB.mk 7 8 9)).length = 1)
      ∧ (∀ i, i < 1 →
          (blockMain 4 4 10 1 "random_image_"
            (fun _ _ _ => RGB.mk 7 8 9))[i]? =
            some (blockImageName "random_image_" (i + 1), 4 * 10, 4 * 10,
              generate_random_image 4 4 10
                ((fun _ _ _ => RGB.mk 7 8 9) i)))
      ∧ (∀ i bx b1 x y, bx < 4 → b1 < 4 → inSquare 10 bx b1 x y →
          generate_random_image 4 4 10 ((fun _ _ _ => RGB.mk 7 8 9) i) x y =
            (fun (_ _ _ : ℕ) => RGB.mk 7 8 9) i bx b1)) :=
  ⟨⟨by norm_num, by norm_num, by norm_num⟩,
   block_tool_output 4 4 10 1 "random_image_" (fun _ _ _ => RGB.mk 7 8 9)
     (by norm_num) (by norm_num) (by norm_num)⟩

/-- Witness for claim C10 at the concrete block size `bs = 10`. -/
theorem paint_block_effects_witness :
    (1 ≤ 10)
    ∧ ((∀ bx b1 c (img : ℕ → ℕ → RGB) x y, inSquare 10 bx b1 x y →
          paintBlock 10 bx b1 c img x y = c)
      ∧ (∀ bx b1 c (img : ℕ → ℕ → RGB) x y, ¬ inSquare 10 bx b1 x y →
          paintBlock 10 bx b1 c img x y = img x y)
      ∧ (∀ bx b1 bx' b1' x y, bx ≠ bx' ∨ b1 ≠ b1' →
          ¬ (inSquare 10 bx b1 x y ∧ inSquare 10 bx' b1' x y))
      ∧ (∀ width height x y, x < width * 10 → y < height * 10 →
          (x / 10 < width ∧ y / 10 < height
            ∧ inSquare 10 (x / 10) (y / 10) x y)
          ∧ ∀ bx b1, inSquare 10 bx b1 x y →
              bx = x / 10 ∧ b1 = y / 10)) :=
  ⟨by norm_num, paint_block_effects 10 (by norm_num)⟩

/-- Sanity check of `pyRound` against the documented values of the Python
built-in: halves round to the nearest even integer. -/
lemma pyRound_half_even_values :
    pyRound (1/4 : ℚ) = 0 ∧ pyRound (1/2 : ℚ) = 0 ∧ pyRound (3/2 : ℚ) = 2
    ∧ pyRound (5/2 : ℚ) = 2 ∧ pyRound (3/4 : ℚ) = 1 := by
  refine ⟨?_, ?_, ?_, ?_, ?_⟩ <;> norm_num [pyRound]

end NavKiosk
